import Mathlib

/-!
# Verification of the INFO 511 EDA numeric core

Shallow embedding of the numeric pipeline of the repository
`INFO_511_Final_Project_FA_25`:

* the IQR outlier filter of `py_EDA_phase3_Outlier_Removal.py` (`main`,
  lines 174-188) and `0_frequency_count_mkl2.py` (lines 99-106), embedded
  over `ℚ` (the percentile/IQR arithmetic on the input values is exact
  rational arithmetic, so the embedding is executable);
* the shape metrics, transform evaluation and transform selection of
  `py_EDA_phase3_Normality_Check.py` (`compute_shape_metrics`,
  `evaluate_transforms`, `apply_transform`, and the stable-sort selection
  in `print_transform_summary` / `main`), embedded over `ℝ`.

Python floats are idealised as real numbers.  Division in Lean is total
with `x / 0 = 0`; numpy float division never raises an exception either
(it produces `inf`/`nan` values).  Reals have no `nan`, so where a `nan`
outcome is load-bearing it is modelled explicitly: `scipySkewNaN`
returns `none` on the zero-variance inputs for which
`scipy.stats.skew` (every release since 1.9) produces `nan`, and the
failed Box-Cox candidate's `nan` metrics are `none` fields.  The scipy
Box-Cox fitting routine (`scipy.stats.boxcox` with no
fixed lambda) is an external collaborator; it is modelled as an explicit
parameter `fit : List ℝ → Option (List ℝ × ℝ)` returning the transformed
values and the fitted lambda, with `none` standing for the exception that
the `try/except` block of `evaluate_transforms` catches.
-/

/-! ## Outlier filter (rational, executable)

Embeds `np.percentile(values, q)` with the default linear interpolation
method, and the Tukey-bound filtering of `py_EDA_phase3_Outlier_Removal.py`
lines 174-188 (`q1`, `q3`, `iqr`, `lower_bound`, `upper_bound`, `mask_keep`)
and of `0_frequency_count_mkl2.py` lines 99-106 (`trimmed_counts`). -/

/-- `np.percentile(xs, q)` with the default ("linear") interpolation
method: sort ascending, take the virtual index `h = q/100 * (n-1)`, and
linearly interpolate between the floor and the next rank. -/
def percentile (xs : List ℚ) (q : ℚ) : ℚ :=
  let s := xs.insertionSort (· ≤ ·)
  let n := s.length
  let h : ℚ := q / 100 * ((n : ℚ) - 1)
  let i : ℕ := ⌊h⌋₊
  let lo := s.getD i 0
  let hi := s.getD (i + 1) lo
  lo + (h - (i : ℚ)) * (hi - lo)

/-- The quartile record computed by `main` of
`py_EDA_phase3_Outlier_Removal.py` lines 176-181:
`q1 = np.percentile(values, 25)`, `q3 = np.percentile(values, 75)`,
`iqr = q3 - q1`, `lower_bound = q1 - 1.5*iqr`, `upper_bound = q3 + 1.5*iqr`. -/
structure OutlierBounds where
  q1 : ℚ
  q3 : ℚ
  iqr : ℚ
  lower_bound : ℚ
  upper_bound : ℚ

/-- Lines 176-181 of `py_EDA_phase3_Outlier_Removal.py`. -/
def computeBounds (xs : List ℚ) : OutlierBounds :=
  let q1 := percentile xs 25
  let q3 := percentile xs 75
  let iqr := q3 - q1
  ⟨q1, q3, iqr, q1 - 3/2 * iqr, q3 + 3/2 * iqr⟩

/-- The kept partition: `mask_keep = (v >= lower_bound) & (v <= upper_bound)`
(line 186 of `py_EDA_phase3_Outlier_Removal.py`; identically
`trimmed_counts = [c for c in counts if lower_bound <= c <= upper_bound]`
at line 106 of `0_frequency_count_mkl2.py`). -/
def outlierKept (xs : List ℚ) : List ℚ :=
  let b := computeBounds xs
  xs.filter (fun v => decide (b.lower_bound ≤ v ∧ v ≤ b.upper_bound))

/-- The removed partition: the rows where `mask_keep` is false
(`n_removed = n_original - n_filtered`, lines 204-206 of
`py_EDA_phase3_Outlier_Removal.py`; the spec defines `removed` as the
complement of `kept`). -/
def outlierRemoved (xs : List ℚ) : List ℚ :=
  let b := computeBounds xs
  xs.filter (fun v => decide (¬(b.lower_bound ≤ v ∧ v ≤ b.upper_bound)))

/-! ## Shape metrics (real-valued)

Embeds `compute_shape_metrics` of `py_EDA_phase3_Normality_Check.py`
(lines 125-141), i.e. `scipy.stats.skew(values, bias=False)` and
`scipy.stats.kurtosis(values, fisher=False, bias=False)`, and the manual
skewness of `0_frequency_count_mkl2.py` lines 122-129 (`skew_trim`). -/

/-- `np.mean`: the arithmetic mean (`0` on the empty list by the
total-division convention). -/
noncomputable def npMean (xs : List ℝ) : ℝ := xs.sum / xs.length

/-- The `k`-th central sample moment `m_k = mean((x - mean(x))^k)`,
as computed inside `scipy.stats.skew` / `scipy.stats.kurtosis`. -/
noncomputable def centralMoment (xs : List ℝ) (k : ℕ) : ℝ :=
  ((xs.map (fun x => (x - npMean xs) ^ k)).sum) / xs.length

/-- `np.std(arr, ddof=0)`: the population standard deviation. -/
noncomputable def npStd (xs : List ℝ) : ℝ := Real.sqrt (centralMoment xs 2)

/-- `scipy.stats.skew(xs, bias=False)`: the biased estimator
`g1 = m3 / m2^(3/2)` with the sample-size correction
`sqrt(n*(n-1))/(n-2)` applied when `n > 2` and `m2 ≠ 0`.
Faithful whenever `m2 ≠ 0`.  At `m2 = 0` scipy (≥ 1.9) produces `nan`,
which Lean's total division collapses to the junk value `0` here; the
faithful degenerate behaviour is `scipySkewNaN` below, and no claim is
settled on this function's value at `m2 = 0`. -/
noncomputable def scipySkew (xs : List ℝ) : ℝ :=
  let n : ℝ := xs.length
  let m2 := centralMoment xs 2
  let g1 := centralMoment xs 3 / (m2 * Real.sqrt m2)
  if 2 < xs.length ∧ m2 ≠ 0 then Real.sqrt (n * (n - 1)) / (n - 2) * g1 else g1

/-- `scipy.stats.kurtosis(xs, fisher=False, bias=False)`: Pearson's
`b2 = m4 / m2^2`, bias-corrected via
`1/((n-2)(n-3)) * ((n^2-1) * m4/m2^2 - 3*(n-1)^2) + 3` when `n > 3`
and `m2 ≠ 0`; `fisher=False` means the Normal ≈ 3 convention (no `- 3`).
Faithful whenever `m2 ≠ 0`; at `m2 = 0` scipy produces `nan`, collapsed
here to a junk value by total division — no claim's verdict depends on
that degenerate value. -/
noncomputable def scipyKurt (xs : List ℝ) : ℝ :=
  let n : ℝ := xs.length
  let m2 := centralMoment xs 2
  let m4 := centralMoment xs 4
  if 3 < xs.length ∧ m2 ≠ 0 then
    1 / ((n - 2) * (n - 3)) * ((n ^ 2 - 1) * m4 / m2 ^ 2 - 3 * (n - 1) ^ 2) + 3
  else m4 / m2 ^ 2

/-- `compute_shape_metrics` (lines 125-141 of
`py_EDA_phase3_Normality_Check.py`): the pair (skew, kurtosis). -/
noncomputable def compute_shape_metrics (xs : List ℝ) : ℝ × ℝ :=
  (scipySkew xs, scipyKurt xs)

/-- The manual trimmed-counts skewness of `0_frequency_count_mkl2.py`
lines 122-129: population mean/std (`ddof=0`), explicit zero-std guard,
then `np.mean(((arr - mean) / std) ** 3)`. -/
noncomputable def skew_trim (xs : List ℝ) : ℝ :=
  if npStd xs = 0 then 0
  else npMean (xs.map (fun x => ((x - npMean xs) / npStd xs) ^ 3))

/-- `scipy.stats.skew(xs, bias=False)` with the degenerate case modelled
faithfully: every scipy release since 1.9 computes
`np.where(zero, np.nan, m3 / m2**1.5)` and only bias-corrects the
non-degenerate entries, so a zero second moment (constant sequence, or
fewer than two values) yields `nan` — modelled as `none`.  On nonzero
`m2` it agrees with `scipySkew`, which is faithful there. -/
noncomputable def scipySkewNaN (xs : List ℝ) : Option ℝ :=
  if centralMoment xs 2 = 0 then none else some (scipySkew xs)

/-! ## Transform evaluation

Embeds `evaluate_transforms` (lines 189-272) and `apply_transform`
(lines 275-308) of `py_EDA_phase3_Normality_Check.py`.  The Python
result is a dict `transform_name -> {skew, kurtosis, score, extra}`;
Python dicts preserve insertion order, so it is embedded as a list of
entries in insertion order.  `score` lives in `WithTop ℝ`, with `⊤`
standing for the `np.inf` recorded on Box-Cox failure; the `nan`
skew/kurtosis of a failed candidate are `none`. -/

/-- One entry of the `results` dict of `evaluate_transforms`:
name, skew, kurtosis, score, and the optional fitted Box-Cox lambda
(the `extra` field, flattened to the lambda it may carry). -/
structure TEntry where
  tname : String
  tskew : Option ℝ
  tkurt : Option ℝ
  tscore : WithTop ℝ
  tlam : Option ℝ

/-- `score = abs(skew) + abs(kurtosis - 3)` (lines 207, 223, 234, 245, 257). -/
noncomputable def scoreOf (xs : List ℝ) : ℝ :=
  |scipySkew xs| + |scipyKurt xs - 3|

/-- A successfully scored candidate entry. -/
noncomputable def mkEntry (name : String) (xs : List ℝ) (lam : Option ℝ) : TEntry :=
  ⟨name, some (scipySkew xs), some (scipyKurt xs), (scoreOf xs : ℝ), lam⟩

/-- The failed Box-Cox entry (lines 264-270): `skew = np.nan`,
`kurtosis = np.nan`, `score = np.inf`, `extra` carries no lambda. -/
def boxcoxFailEntry : TEntry := ⟨"boxcox", none, none, ⊤, none⟩

/-- `positive_values = values[values > 0]` (line 216). -/
noncomputable def positives (values : List ℝ) : List ℝ :=
  values.filter (fun v => decide (0 < v))

/-- `np.log1p`. -/
noncomputable def log1p (x : ℝ) : ℝ := Real.log (1 + x)

/-- `np.cbrt` on the (positive) inputs it receives here: `x^(1/3)`. -/
noncomputable def cbrt (x : ℝ) : ℝ := x ^ ((1 : ℝ) / 3)

/-- `scipy.stats.boxcox(x, lmbda=lam)`: `(x^lam - 1)/lam`, or `ln x`
when `lam = 0`. -/
noncomputable def boxcoxWith (lam x : ℝ) : ℝ :=
  if lam = 0 then Real.log x else (x ^ lam - 1) / lam

/-- `evaluate_transforms` (lines 189-272).  `fit` models
`scipy.stats.boxcox(positive_values)` (transformed values and fitted
lambda); `fit _ = none` models the exception caught by the
`try/except` (lines 253-270).  The identity entry is computed on the
full sequence; if the strictly-positive subsequence is empty the
function returns early with only the identity entry (lines 216-218);
otherwise log1p, sqrt, cuberoot and boxcox entries follow in
declaration order. -/
noncomputable def evaluate_transforms (values : List ℝ)
    (fit : List ℝ → Option (List ℝ × ℝ)) : List TEntry :=
  let idEntry := mkEntry "identity" values none
  let pos := positives values
  if pos = [] then [idEntry]
  else
    let logE := mkEntry "log1p" (pos.map log1p) none
    let sqrtE := mkEntry "sqrt" (pos.map Real.sqrt) none
    let cbrtE := mkEntry "cuberoot" (pos.map cbrt) none
    let bcE := match fit pos with
      | some (bcVals, lam) => mkEntry "boxcox" bcVals (some lam)
      | none => boxcoxFailEntry
    [idEntry, logE, sqrtE, cbrtE, bcE]

/-- `apply_transform` (lines 275-308).  Returns `none` only when the
Box-Cox refit (taken when no finite lambda is supplied) raises; every
real lambda is finite, so `np.isfinite(lam)` is always true here.
An unknown name falls through to the final `else` and returns a copy
of the full input (lines 306-308). -/
noncomputable def apply_transform (values : List ℝ) (name : String)
    (extra : Option ℝ) (fit : List ℝ → Option (List ℝ × ℝ)) :
    Option (List ℝ) :=
  if name = "identity" then some values
  else
    let vals := if values.any (fun v => decide (v ≤ 0))
      then values.filter (fun v => decide (0 < v)) else values
    if name = "log1p" then some (vals.map log1p)
    else if name = "sqrt" then some (vals.map Real.sqrt)
    else if name = "cuberoot" then some (vals.map cbrt)
    else if name = "boxcox" then
      match extra with
      | some lam => some (vals.map (boxcoxWith lam))
      | none => (fit vals).map (fun p => p.1)
    else some values

/-! ## Transform selection

`print_transform_summary` (line 319) and `main` (line 453) both select
via `sorted(results.items(), key=lambda kv: kv[1]["score"])[0]`.
Python's `sorted` is a stable sort; it is embedded as Mathlib's
(stable) insertion sort on the score order. -/

/-- `sorted(results.items(), key=lambda kv: kv[1]["score"])`:
a stable sort of the entries by score. -/
noncomputable def pySortedByScore (l : List TEntry) : List TEntry :=
  l.insertionSort (fun a b => a.tscore ≤ b.tscore)

/-- `sorted(...)[0]` (line 453 of `main`, line 331 of
`print_transform_summary`): the selected best candidate. -/
noncomputable def selectBest (l : List TEntry) : Option TEntry :=
  (pySortedByScore l).head?

/-- The minimum of the scores of a candidate list (`⊤` if empty). -/
noncomputable def minScore (l : List TEntry) : WithTop ℝ :=
  (l.map (·.tscore)).foldr min ⊤

/-- The Selection Result as the spec words it: "the Transform Candidate
with minimum score; ties broken by the candidate list's declaration
order …, first occurrence wins" — i.e. the first entry, in declaration
order, whose score attains the minimum. -/
noncomputable def specSelect (l : List TEntry) : Option TEntry :=
  l.find? (fun e => decide (e.tscore = minScore l))

/-! ## Helper lemmas -/

theorem minScore_cons (x : TEntry) (xs : List TEntry) :
    minScore (x :: xs) = min x.tscore (minScore xs) := by
  simp [minScore]

/-- The head of the stable sort by score is exactly the first entry, in
declaration order, whose score attains the minimum. -/
theorem selectBest_eq_specSelect (l : List TEntry) : selectBest l = specSelect l := by
  induction l with
  | nil => simp [selectBest, pySortedByScore, specSelect, List.insertionSort]
  | cons x xs ih =>
    rw [selectBest, pySortedByScore, List.insertionSort]
    rw [selectBest, pySortedByScore] at ih
    cases h : List.insertionSort (fun a b => a.tscore ≤ b.tscore) xs with
    | nil =>
      have hxs : xs = [] := by
        have hlen := List.length_insertionSort (fun a b => a.tscore ≤ b.tscore) xs
        rw [h] at hlen
        exact List.length_eq_zero.mp hlen.symm
      subst hxs
      simp [specSelect, minScore, List.orderedInsert,
        min_eq_left (le_top (a := x.tscore))]
    | cons y t =>
      rw [h] at ih
      have hfind : xs.find? (fun e => decide (e.tscore = minScore xs)) = some y := by
        simpa [specSelect] using ih.symm
      have hy : y.tscore = minScore xs := by
        have hp := List.find?_some hfind
        simpa using hp
      rw [List.orderedInsert]
      by_cases hxy : x.tscore ≤ y.tscore
      · rw [if_pos hxy]
        have hxm : x.tscore ≤ minScore xs := hy ▸ hxy
        have hmin : minScore (x :: xs) = x.tscore := by
          rw [minScore_cons]; exact min_eq_left hxm
        rw [specSelect, List.find?_cons_of_pos]
        · simp
        · simp [hmin]
      · rw [if_neg hxy]
        have hlt : minScore xs < x.tscore := by rw [← hy]; exact lt_of_not_le hxy
        have hmin : minScore (x :: xs) = minScore xs := by
          rw [minScore_cons]; exact min_eq_right hlt.le
        rw [specSelect, List.find?_cons_of_neg]
        · simp only [hmin]
          rw [hfind]
          simp
        · simp [hmin]
          exact hlt.ne'

/-! ## Claim theorems -/

/-- C1: for every input sequence (and Box-Cox fit outcome), the
selection `sorted(results.items(), key=score)[0]` over the candidate
dict built by `evaluate_transforms` — whose insertion order is the fixed
declaration order identity, log1p, sqrt, cuberoot, boxcox — returns the
first-declared candidate attaining the minimum score (`specSelect`). -/
theorem selector_returns_first_declared_minimum (values : List ℝ)
    (fit : List ℝ → Option (List ℝ × ℝ)) :
    selectBest (evaluate_transforms values fit) =
      specSelect (evaluate_transforms values fit) ∧
    ((evaluate_transforms values fit).map (·.tname) = ["identity"] ∨
     (evaluate_transforms values fit).map (·.tname) =
       ["identity", "log1p", "sqrt", "cuberoot", "boxcox"]) := by
  refine ⟨selectBest_eq_specSelect _, ?_⟩
  by_cases h : positives values = []
  · left
    simp [evaluate_transforms, h, mkEntry]
  · right
    rcases hf : fit (positives values) with _ | p
    · simp [evaluate_transforms, h, hf, mkEntry, boxcoxFailEntry]
    · cases p
      simp [evaluate_transforms, h, hf, mkEntry]

/-- C9: the result set of `evaluate_transforms` always starts with the
identity candidate computed on the full sequence, hence is never empty,
and the minimum-score selection is always well-defined (returns some
candidate). -/
theorem evaluate_transforms_always_has_identity (values : List ℝ)
    (fit : List ℝ → Option (List ℝ × ℝ)) :
    (evaluate_transforms values fit).head? = some (mkEntry "identity" values none) ∧
    evaluate_transforms values fit ≠ [] ∧
    (selectBest (evaluate_transforms values fit)).isSome = true := by
  have hhead : (evaluate_transforms values fit).head? =
      some (mkEntry "identity" values none) := by
    by_cases h : positives values = [] <;> simp [evaluate_transforms, h]
  have hne : evaluate_transforms values fit ≠ [] := by
    intro hnil
    rw [hnil] at hhead
    simp at hhead
  refine ⟨hhead, hne, ?_⟩
  rw [selectBest, List.head?_isSome]
  intro hsor
  have hlen := List.length_insertionSort
    (fun a b => a.tscore ≤ b.tscore) (evaluate_transforms values fit)
  rw [pySortedByScore] at hsor
  rw [hsor] at hlen
  exact hne (List.length_eq_zero.mp hlen.symm)

/-- C4: when the strictly-positive subsequence is empty (every value is
≤ 0), `evaluate_transforms` returns early and the result set contains
exactly the identity candidate — log1p, sqrt, cuberoot and boxcox are
omitted entirely. -/
theorem evaluate_transforms_all_nonpositive (values : List ℝ)
    (fit : List ℝ → Option (List ℝ × ℝ)) (h : ∀ v ∈ values, v ≤ 0) :
    evaluate_transforms values fit = [mkEntry "identity" values none] := by
  have hpos : positives values = [] := by
    rw [positives, List.filter_eq_nil_iff]
    intro a ha
    simpa using not_lt.mpr (h a ha)
  simp [evaluate_transforms, hpos]

/-- Witness for C4 at the concrete all-nonpositive input `[-1, 0]`. -/
theorem evaluate_transforms_all_nonpositive_witness :
    (∀ v ∈ [(-1 : ℝ), 0], v ≤ 0) ∧
    evaluate_transforms [(-1 : ℝ), 0] (fun _ => none) =
      [mkEntry "identity" [(-1 : ℝ), 0] none] := by
  have h : ∀ v ∈ [(-1 : ℝ), 0], v ≤ 0 := by
    intro v hv
    simp only [List.mem_cons, List.not_mem_nil, or_false] at hv
    rcases hv with rfl | rfl <;> norm_num
  exact ⟨h, evaluate_transforms_all_nonpositive _ _ h⟩

/-- C2: when the positive subsequence is non-empty and the Box-Cox fit
raises (is `none`), the boxcox candidate is still recorded with score
`⊤` (= `np.inf`), the other four candidates are exactly what they would
be under any other fit outcome, evaluation continues (all five names
present), and the boxcox candidate is never the selected minimum, since
the earlier identity candidate always carries a finite (coerced real)
score. -/
theorem boxcox_failure_scored_infinite_never_selected (values : List ℝ)
    (fit : List ℝ → Option (List ℝ × ℝ))
    (hpos : positives values ≠ [])
    (hfit : fit (positives values) = none) :
    (evaluate_transforms values fit).find? (fun e => e.tname == "boxcox") =
      some boxcoxFailEntry ∧
    (∀ fit', (evaluate_transforms values fit).take 4 =
      (evaluate_transforms values fit').take 4) ∧
    (evaluate_transforms values fit).map (·.tname) =
      ["identity", "log1p", "sqrt", "cuberoot", "boxcox"] ∧
    (selectBest (evaluate_transforms values fit)).map (·.tname) ≠ some "boxcox" := by
  have hL : evaluate_transforms values fit =
      [mkEntry "identity" values none,
       mkEntry "log1p" ((positives values).map log1p) none,
       mkEntry "sqrt" ((positives values).map Real.sqrt) none,
       mkEntry "cuberoot" ((positives values).map cbrt) none,
       boxcoxFailEntry] := by
    simp [evaluate_transforms, hpos, hfit]
  refine ⟨?_, ?_, ?_, ?_⟩
  · rw [hL]
    simp [List.find?, mkEntry, boxcoxFailEntry]
  · intro fit'
    rw [hL]
    simp [evaluate_transforms, hpos]
  · rw [hL]
    simp [mkEntry, boxcoxFailEntry]
  · rw [selectBest_eq_specSelect]
    intro hcontra
    obtain ⟨e, he, hename⟩ : ∃ e, specSelect (evaluate_transforms values fit) = some e ∧
        e.tname = "boxcox" := by
      cases hs : specSelect (evaluate_transforms values fit) with
      | none => rw [hs] at hcontra; simp at hcontra
      | some e =>
        rw [hs] at hcontra
        simp only [Option.map_some'] at hcontra
        exact ⟨e, rfl, by simpa using hcontra⟩
    rw [specSelect] at he
    have hmem := List.mem_of_find?_eq_some he
    have hsc := List.find?_some he
    have hescore : e.tscore = minScore (evaluate_transforms values fit) := by
      simpa using hsc
    have hminlt : minScore (evaluate_transforms values fit) < ⊤ := by
      have hle : minScore (evaluate_transforms values fit) ≤
          ((scoreOf values : ℝ) : WithTop ℝ) := by
        rw [hL, minScore_cons]
        exact le_trans (min_le_left _ _) (by simp [mkEntry])
      exact lt_of_le_of_lt hle (WithTop.coe_lt_top _)
    rw [hL] at hmem
    simp only [List.mem_cons, List.not_mem_nil, or_false] at hmem
    rcases hmem with rfl | rfl | rfl | rfl | rfl
    · simp [mkEntry] at hename
    · simp [mkEntry] at hename
    · simp [mkEntry] at hename
    · simp [mkEntry] at hename
    · rw [boxcoxFailEntry] at hescore
      simp only at hescore
      rw [← hescore] at hminlt
      exact lt_irrefl _ hminlt

/-- Witness for C2 at the concrete input `[1, 2]` with a failing fit. -/
theorem boxcox_failure_scored_infinite_never_selected_witness :
    positives [(1 : ℝ), 2] ≠ [] ∧
    (fun _ : List ℝ => (none : Option (List ℝ × ℝ))) (positives [(1 : ℝ), 2]) = none ∧
    (evaluate_transforms [(1 : ℝ), 2] (fun _ => none)).find?
      (fun e => e.tname == "boxcox") = some boxcoxFailEntry ∧
    (selectBest (evaluate_transforms [(1 : ℝ), 2] (fun _ => none))).map (·.tname) ≠
      some "boxcox" := by
  have h1 : positives [(1 : ℝ), 2] ≠ [] := by
    have hp : positives [(1 : ℝ), 2] = [1, 2] := by
      norm_num [positives, List.filter_cons]
    rw [hp]
    simp
  have h2 : (fun _ : List ℝ => (none : Option (List ℝ × ℝ)))
      (positives [(1 : ℝ), 2]) = none := rfl
  have h := boxcox_failure_scored_infinite_never_selected [(1 : ℝ), 2] (fun _ => none) h1 h2
  exact ⟨h1, h2, h.1, h.2.2.2⟩

/-- C10: for any transform name outside the five known ones,
`apply_transform` does not fail: it falls through to the final `else`
and returns (a copy of) the full input sequence unchanged, exactly as
the identity branch does. -/
theorem apply_transform_unknown_name_identity (values : List ℝ) (name : String)
    (extra : Option ℝ) (fit : List ℝ → Option (List ℝ × ℝ))
    (h : name ∉ ["identity", "log1p", "sqrt", "cuberoot", "boxcox"]) :
    apply_transform values name extra fit = some values ∧
    apply_transform values name extra fit =
      apply_transform values "identity" extra fit := by
  simp only [List.mem_cons, List.not_mem_nil, not_or, or_false] at h
  obtain ⟨h1, h2, h3, h4, h5⟩ := h
  have e1 : apply_transform values name extra fit = some values := by
    simp [apply_transform, h1, h2, h3, h4, h5]
  have e2 : apply_transform values "identity" extra fit = some values := by
    simp [apply_transform]
  exact ⟨e1, e1.trans e2.symm⟩

/-- Witness for C10 at the unknown name `"zscore"` on input `[-3, 2]`. -/
theorem apply_transform_unknown_name_identity_witness :
    "zscore" ∉ ["identity", "log1p", "sqrt", "cuberoot", "boxcox"] ∧
    apply_transform [(-3 : ℝ), 2] "zscore" none (fun _ => none) =
      some [(-3 : ℝ), 2] := by
  have h : "zscore" ∉ ["identity", "log1p", "sqrt", "cuberoot", "boxcox"] := by
    decide
  exact ⟨h, (apply_transform_unknown_name_identity _ _ _ _ h).1⟩

/-- C5: the kept and removed subsets of the outlier filter form a
partition of the input: as multisets their union is the input and their
intersection is empty. -/
theorem outlier_filter_partition (xs : List ℚ) :
    (outlierKept xs : Multiset ℚ) + (outlierRemoved xs : Multiset ℚ) =
      (xs : Multiset ℚ) ∧
    (outlierKept xs : Multiset ℚ) ∩ (outlierRemoved xs : Multiset ℚ) = 0 := by
  constructor
  · have hrew : outlierRemoved xs = xs.filter
        (fun v => !(decide ((computeBounds xs).lower_bound ≤ v ∧
          v ≤ (computeBounds xs).upper_bound))) := by
      rw [outlierRemoved]
      refine List.filter_congr ?_
      intro v _
      rw [decide_not]
    have hperm : List.Perm (outlierKept xs ++ outlierRemoved xs) xs := by
      rw [outlierKept, hrew]
      exact List.filter_append_perm _ xs
    rw [Multiset.coe_add]
    exact Multiset.coe_eq_coe.mpr hperm
  · rw [Multiset.eq_zero_iff_forall_not_mem]
    intro a ha
    rw [Multiset.mem_inter, Multiset.mem_coe, Multiset.mem_coe] at ha
    obtain ⟨h1, h2⟩ := ha
    simp only [outlierKept] at h1
    simp only [outlierRemoved] at h2
    have p1 := (List.mem_filter.mp h1).2
    have p2 := (List.mem_filter.mp h2).2
    simp only [decide_eq_true_eq] at p1 p2
    exact absurd p1 p2

/-- C6: the concrete scenario `[1,2,2,3,3,3,100]` — linear-interpolated
percentiles give Q1 = 2, Q3 = 3, IQR = 1, bounds 0.5 and 4.5, and the
partition keeps `[1,2,2,3,3,3]` and removes `[100]`. -/
theorem outlier_concrete_scenario :
    (computeBounds [(1 : ℚ), 2, 2, 3, 3, 3, 100]).q1 = 2 ∧
    (computeBounds [(1 : ℚ), 2, 2, 3, 3, 3, 100]).q3 = 3 ∧
    (computeBounds [(1 : ℚ), 2, 2, 3, 3, 3, 100]).iqr = 1 ∧
    (computeBounds [(1 : ℚ), 2, 2, 3, 3, 3, 100]).lower_bound = 1/2 ∧
    (computeBounds [(1 : ℚ), 2, 2, 3, 3, 3, 100]).upper_bound = 9/2 ∧
    outlierKept [(1 : ℚ), 2, 2, 3, 3, 3, 100] = [1, 2, 2, 3, 3, 3] ∧
    outlierRemoved [(1 : ℚ), 2, 2, 3, 3, 3, 100] = [100] := by
  have f1 : ⌊(3 / 2 : ℚ)⌋₊ = 1 := by rw [Nat.floor_eq_iff] <;> norm_num
  have f2 : ⌊(9 / 2 : ℚ)⌋₊ = 4 := by rw [Nat.floor_eq_iff] <;> norm_num
  have h25 : percentile [(1 : ℚ), 2, 2, 3, 3, 3, 100] 25 = 2 := by
    norm_num [percentile, List.insertionSort, List.orderedInsert, f1]
  have h75 : percentile [(1 : ℚ), 2, 2, 3, 3, 3, 100] 75 = 3 := by
    norm_num [percentile, List.insertionSort, List.orderedInsert, f2]
  have hlb : (computeBounds [(1 : ℚ), 2, 2, 3, 3, 3, 100]).lower_bound = 1/2 := by
    simp only [computeBounds, h25, h75]
    norm_num
  have hub : (computeBounds [(1 : ℚ), 2, 2, 3, 3, 3, 100]).upper_bound = 9/2 := by
    simp only [computeBounds, h25, h75]
    norm_num
  refine ⟨by simp only [computeBounds, h25, h75],
          by simp only [computeBounds, h25, h75],
          by simp only [computeBounds, h25, h75]; norm_num, hlb, hub, ?_, ?_⟩
  · simp only [outlierKept, hlb, hub]
    norm_num [List.filter_cons]
  · simp only [outlierRemoved, hlb, hub]
    norm_num [List.filter_cons]

/-- Counterexample to C7 as stated: for the singleton sequence `[5]`
the first quartile is 5, not 0 (the claim asserts `q1 = q3 = iqr = 0`
for every length-1 sequence). -/
theorem singleton_q1_not_zero :
    (computeBounds [(5 : ℚ)]).q1 = 5 ∧ (computeBounds [(5 : ℚ)]).q1 ≠ 0 := by
  have h : percentile [(5 : ℚ)] 25 = 5 := by
    norm_num [percentile, List.insertionSort, List.orderedInsert]
  refine ⟨by simp only [computeBounds, h], ?_⟩
  simp only [computeBounds, h]
  norm_num

/-- C7 (amended): for every singleton sequence `[v]`, both quartiles
equal the single value `v` (not 0), the IQR is 0, both bounds equal
`v`, and the single value is kept, not removed. -/
theorem singleton_outlier_filter (v : ℚ) :
    (computeBounds [v]).q1 = v ∧ (computeBounds [v]).q3 = v ∧
    (computeBounds [v]).iqr = 0 ∧ (computeBounds [v]).lower_bound = v ∧
    (computeBounds [v]).upper_bound = v ∧
    outlierKept [v] = [v] ∧ outlierRemoved [v] = [] := by
  have h25 : percentile [v] 25 = v := by
    norm_num [percentile, List.insertionSort, List.orderedInsert]
  have h75 : percentile [v] 75 = v := by
    norm_num [percentile, List.insertionSort, List.orderedInsert]
  have hlb : (computeBounds [v]).lower_bound = v := by
    simp only [computeBounds, h25, h75]
    ring
  have hub : (computeBounds [v]).upper_bound = v := by
    simp only [computeBounds, h25, h75]
    ring
  refine ⟨by simp only [computeBounds, h25, h75],
          by simp only [computeBounds, h25, h75],
          by simp only [computeBounds, h25, h75]; ring, hlb, hub, ?_, ?_⟩
  · simp only [outlierKept, hlb, hub]
    simp [List.filter_cons]
  · simp only [outlierRemoved, hlb, hub]
    simp [List.filter_cons]

theorem npMean_replicate (n : ℕ) (c : ℝ) (hn : n ≠ 0) :
    npMean (List.replicate n c) = c := by
  rw [npMean]
  rw [List.sum_replicate, List.length_replicate, nsmul_eq_mul]
  have hn' : (n : ℝ) ≠ 0 := by exact_mod_cast hn
  field_simp

theorem centralMoment_replicate (n : ℕ) (c : ℝ) (k : ℕ) (hk : k ≠ 0) :
    centralMoment (List.replicate n c) k = 0 := by
  rcases Nat.eq_zero_or_pos n with rfl | hn
  · simp [centralMoment]
  · rw [centralMoment, npMean_replicate n c hn.ne']
    simp [List.map_replicate, sub_self, zero_pow hk, List.sum_replicate]

/-- Counterexample to C3 as stated: on the constant sequence
`[1,1,1,1,1]` the `scipy.stats.skew(..., bias=False)` call of
`compute_shape_metrics` (zero second moment, so scipy ≥ 1.9 takes the
`np.where(zero, np.nan, ...)` branch) returns `nan` (`none`), not the
claimed skewness 0. -/
theorem scipy_skew_constant_is_nan_not_zero :
    scipySkewNaN [(1:ℝ), 1, 1, 1, 1] = none ∧
    scipySkewNaN [(1:ℝ), 1, 1, 1, 1] ≠ some 0 := by
  have h2 : centralMoment [(1:ℝ), 1, 1, 1, 1] 2 = 0 := by
    norm_num [centralMoment, npMean]
  refine ⟨by rw [scipySkewNaN, if_pos h2], ?_⟩
  rw [scipySkewNaN, if_pos h2]
  simp

/-- C3 (amended): on every constant sequence (zero sample standard
deviation) neither skewness computation raises a division-by-zero
error (both embeddings are total, matching the Python code, where the
manual path is guarded and numpy/scipy float arithmetic yields values
rather than raising): the manual `skew_trim` of
`0_frequency_count_mkl2.py` returns 0 through its explicit
`trim_std == 0` guard, while the unguarded
`scipy.stats.skew(..., bias=False)` of `compute_shape_metrics`
returns `nan` (`none`), not 0. -/
theorem constant_sequence_skew_guarded (n : ℕ) (c : ℝ) :
    skew_trim (List.replicate n c) = 0 ∧
    scipySkewNaN (List.replicate n c) = none := by
  have h2 : centralMoment (List.replicate n c) 2 = 0 :=
    centralMoment_replicate n c 2 (by norm_num)
  constructor
  · rw [skew_trim, if_pos]
    rw [npStd, h2, Real.sqrt_zero]
  · rw [scipySkewNaN, if_pos h2]

theorem centralMoment_two_nonneg (xs : List ℝ) : 0 ≤ centralMoment xs 2 := by
  rw [centralMoment]
  apply div_nonneg
  · apply List.sum_nonneg
    intro x hx
    simp only [List.mem_map] at hx
    obtain ⟨a, -, rfl⟩ := hx
    positivity
  · positivity

/-- The manual `skew_trim` computes the biased (population) estimator
`g1 = m3 / m2^(3/2)`. -/
theorem skew_trim_eq_g1 (xs : List ℝ) (h2 : centralMoment xs 2 ≠ 0) :
    skew_trim xs = centralMoment xs 3 /
      (centralMoment xs 2 * Real.sqrt (centralMoment xs 2)) := by
  have hm2pos : 0 < centralMoment xs 2 :=
    lt_of_le_of_ne (centralMoment_two_nonneg xs) (Ne.symm h2)
  have hspos : 0 < npStd xs := Real.sqrt_pos.mpr hm2pos
  rw [skew_trim, if_neg hspos.ne']
  have hcube : ∀ x : ℝ, ((x - npMean xs) / npStd xs) ^ 3 =
      (x - npMean xs) ^ 3 * ((npStd xs ^ 3)⁻¹) := by
    intro x
    rw [div_pow, div_eq_mul_inv]
  simp only [hcube]
  rw [npMean, List.sum_map_mul_right, List.length_map]
  have hstd3 : npStd xs ^ 3 = centralMoment xs 2 * Real.sqrt (centralMoment xs 2) := by
    rw [npStd]
    rw [pow_succ, Real.sq_sqrt hm2pos.le]
  rw [hstd3]
  have hc3 : centralMoment xs 3 =
      ((xs.map (fun x => (x - npMean xs) ^ 3)).sum) / xs.length := by
    rw [centralMoment]
  rw [hc3]
  ring

/-- `scipy.stats.skew(xs, bias=False)` equals the biased manual
estimator times the finite-sample correction `sqrt(n*(n-1))/(n-2)`. -/
theorem scipySkew_eq_corr (xs : List ℝ) (hlen : 2 < xs.length)
    (h2 : centralMoment xs 2 ≠ 0) :
    scipySkew xs = Real.sqrt ((xs.length : ℝ) * ((xs.length : ℝ) - 1)) /
      ((xs.length : ℝ) - 2) * skew_trim xs := by
  simp only [scipySkew]
  rw [if_pos ⟨hlen, h2⟩, skew_trim_eq_g1 xs h2]

theorem m2_001 : centralMoment [(0:ℝ), 0, 1] 2 = 2/9 := by
  norm_num [centralMoment, npMean]

theorem m3_001 : centralMoment [(0:ℝ), 0, 1] 3 = 2/27 := by
  norm_num [centralMoment, npMean]

/-- Counterexample to C8 as stated: on the concrete sequence `[0,0,1]`
(n = 3, nonzero standard deviation) the manual trimmed-counts skewness
(`skew_trim`, the biased population estimator) and the bias-corrected
`scipy.stats.skew(..., bias=False)` used by `compute_shape_metrics`
give different values — they differ by the factor `sqrt(6)`. -/
theorem skew_estimators_disagree_at_001 :
    scipySkew [(0:ℝ), 0, 1] ≠ skew_trim [(0:ℝ), 0, 1] ∧
    skew_trim [(0:ℝ), 0, 1] ≠ 0 := by
  have h2 : centralMoment [(0:ℝ), 0, 1] 2 ≠ 0 := by rw [m2_001]; norm_num
  have hst : skew_trim [(0:ℝ), 0, 1] = (2/27) / ((2/9) * Real.sqrt (2/9)) := by
    rw [skew_trim_eq_g1 _ h2, m2_001, m3_001]
  have hstpos : 0 < skew_trim [(0:ℝ), 0, 1] := by
    rw [hst]
    apply div_pos (by norm_num)
    exact mul_pos (by norm_num) (Real.sqrt_pos.mpr (by norm_num))
  have hlen : 2 < ([(0:ℝ), 0, 1]).length := by norm_num
  have hrel := scipySkew_eq_corr [(0:ℝ), 0, 1] hlen h2
  have hlen3 : ((([(0:ℝ), 0, 1]).length : ℕ) : ℝ) = 3 := by norm_num
  rw [hlen3] at hrel
  have h6 : Real.sqrt ((3:ℝ) * ((3:ℝ) - 1)) / ((3:ℝ) - 2) = Real.sqrt 6 := by
    norm_num
  rw [h6] at hrel
  have hgt : 1 < Real.sqrt 6 := by
    have h1 : Real.sqrt 1 < Real.sqrt 6 := by
      apply Real.sqrt_lt_sqrt <;> norm_num
    rwa [Real.sqrt_one] at h1
  refine ⟨?_, hstpos.ne'⟩
  rw [hrel]
  intro heq
  have hfac : (Real.sqrt 6 - 1) * skew_trim [(0:ℝ), 0, 1] = 0 := by
    nlinarith [heq]
  rcases mul_eq_zero.mp hfac with h | h
  · have : Real.sqrt 6 = 1 := by linarith
    linarith
  · exact hstpos.ne' h

/-- C8 (amended): the manual trimmed-counts skewness of
`0_frequency_count_mkl2.py` is the biased population estimator
`g1 = m3 / m2^(3/2)`, not the bias-corrected one; the bias-corrected
`scipy.stats.skew(..., bias=False)` of `compute_shape_metrics` equals
it multiplied by `sqrt(n*(n-1))/(n-2)`, so the two skewness
computations agree only when the skewness is zero. -/
theorem skew_estimators_differ_by_bias_factor (xs : List ℝ)
    (hlen : 2 < xs.length) (h2 : centralMoment xs 2 ≠ 0) :
    skew_trim xs = centralMoment xs 3 /
      (centralMoment xs 2 * Real.sqrt (centralMoment xs 2)) ∧
    scipySkew xs = Real.sqrt ((xs.length : ℝ) * ((xs.length : ℝ) - 1)) /
      ((xs.length : ℝ) - 2) * skew_trim xs :=
  ⟨skew_trim_eq_g1 xs h2, scipySkew_eq_corr xs hlen h2⟩

/-- Witness for the amended C8 at the concrete sequence `[0,0,1]`. -/
theorem skew_estimators_differ_by_bias_factor_witness :
    2 < ([(0:ℝ), 0, 1]).length ∧ centralMoment [(0:ℝ), 0, 1] 2 ≠ 0 ∧
    scipySkew [(0:ℝ), 0, 1] =
      Real.sqrt ((([(0:ℝ), 0, 1]).length : ℝ) * ((([(0:ℝ), 0, 1]).length : ℝ) - 1)) /
        ((([(0:ℝ), 0, 1]).length : ℝ) - 2) * skew_trim [(0:ℝ), 0, 1] := by
  have hlen : 2 < ([(0:ℝ), 0, 1]).length := by norm_num
  have h2 : centralMoment [(0:ℝ), 0, 1] 2 ≠ 0 := by rw [m2_001]; norm_num
  exact ⟨hlen, h2, (skew_estimators_differ_by_bias_factor _ hlen h2).2⟩
